import Mathlib

/-!
Shallow embedding of the post query/pagination pipeline of `src/app.py`
(a small flask blog).  Python dicts holding post metadata are modelled as a
structure of optional string fields (absent key = `none`); Python exceptions
(KeyError, ValueError, TypeError, UnboundLocalError) are modelled with
`Except`; `datetime.now()` is passed explicitly as a parameter.
-/

deriving instance DecidableEq for Except

namespace Microblog

/-- A post record (`metadata` dict of `parse_post`, plus `content`/`slug`
added by `parse_posts`).  A field holds `none` when the key is absent. -/
structure Post where
  title : Option String := none
  date : Option String := none
  category : Option String := none
  published : Option String := none
  content : Option String := none
  slug : Option String := none
deriving DecidableEq, Repr

/-- A parsed `datetime` value as produced by `datetime.strptime` with the
format `EXACT_FORMAT = "%Y-%m-%d %H:%M:%S"` (app.py line 17). -/
structure DateTime where
  year : Nat
  month : Nat
  day : Nat
  hour : Nat
  minute : Nat
  second : Nat
deriving DecidableEq, Repr

/-- Python `datetime` comparison: lexicographic on the six fields.
`(now - past).total_seconds() > 0` (app.py lines 134-135) is exactly
`DateTime.ltb past now`. -/
def DateTime.ltb (a b : DateTime) : Bool :=
  if a.year ≠ b.year then a.year < b.year
  else if a.month ≠ b.month then a.month < b.month
  else if a.day ≠ b.day then a.day < b.day
  else if a.hour ≠ b.hour then a.hour < b.hour
  else if a.minute ≠ b.minute then a.minute < b.minute
  else a.second < b.second

/-- Parse a non-empty all-digit string as a decimal number. -/
def parseNat? (s : String) : Option Nat :=
  if s.length > 0 && s.all Char.isDigit then
    some (s.foldl (fun a c => 10 * a + (c.toNat - 48)) 0)
  else none

/-- Model of `datetime.strptime(s, "%Y-%m-%d %H:%M:%S")`: six decimal
fields separated by `-`, `-`, space, `:`, `:`; field ranges validated
(calendar-exact day-of-month validation is approximated by `day ≤ 31`).
Returns `none` where Python raises `ValueError`. -/
def strptime (s : String) : Option DateTime :=
  match s.split (fun c => c = '-' || c = ' ' || c = ':') with
  | [y, mo, d, h, mi, se] =>
    match parseNat? y, parseNat? mo, parseNat? d,
          parseNat? h, parseNat? mi, parseNat? se with
    | some yn, some mon, some dn, some hn, some min, some sen =>
      if 1 ≤ mon ∧ mon ≤ 12 ∧ 1 ≤ dn ∧ dn ≤ 31 ∧ hn ≤ 23 ∧ min ≤ 59 ∧ sen ≤ 61
      then some ⟨yn, mon, dn, hn, min, sen⟩
      else none
    | _, _, _, _, _, _ => none
  | _ => none

/-- A value bound to a criteria key: the callers of `processed_posts` pass
either a boolean (`published=True`, `reverse=True`) or a list of category
strings (`category=categories`). -/
inductive Value where
  | bool (b : Bool)
  | strs (ss : List String)
deriving DecidableEq, Repr

/-- Python truthiness of a criteria value (`if value:` on line 137). -/
def Value.truthy : Value → Bool
  | .bool b => b
  | .strs ss => !ss.isEmpty

/-- Python exceptions that the modelled code can raise. -/
inductive PyErr where
  | keyError
  | valueError
  | typeError
  | unboundLocalError
deriving DecidableEq, Repr

/-- The `**criteria` keyword dict, as a key/value list. -/
abbrev Criteria := List (String × Value)

/-- `ensure_metadata` (app.py lines 28-32): metadata is well-formed when the
`title`, `date` and `category` keys are all present. -/
def ensure_metadata (metadata : Post) : Bool :=
  metadata.title.isSome && metadata.date.isSome && metadata.category.isSome

/-- `fits_criterium` (app.py lines 131-145).  For the `published` key with
both `published` and `date` present the date is parsed (ValueError on
malformed dates) and `condition = (post.published == "yes") and (parsed <
now)`; the criterion value selects `condition` or its negation.  For the
`category` key, `post['category'] in value` (KeyError when the key is
absent, TypeError when the value is not a list).  Any other key is
ignored: the criterion holds. -/
def fits_criterium (now : DateTime) (post : Post) (key : String) (value : Value) :
    Except PyErr Bool :=
  if key = "published" ∧ post.published.isSome ∧ post.date.isSome then
    match strptime (post.date.getD "") with
    | none => .error .valueError
    | some t =>
      let condition := (post.published == some "yes") && DateTime.ltb t now
      if value.truthy then .ok condition else .ok (!condition)
  else if key = "category" then
    match post.category with
    | none => .error .keyError
    | some c =>
      match value with
      | .strs ss => .ok (ss.contains c)
      | .bool _ => .error .typeError
  else
    .ok true

/-- Left-to-right effectful map over a list, first raised exception wins
(the evaluation order of a Python list comprehension). -/
def mapExcept (f : α → Except ε β) : List α → Except ε (List β)
  | [] => .ok []
  | a :: as =>
    match f a with
    | .error e => .error e
    | .ok b =>
      match mapExcept f as with
      | .error e => .error e
      | .ok bs => .ok (b :: bs)

/-- Left-to-right effectful filter, first raised exception wins. -/
def filterExcept (f : α → Except ε Bool) : List α → Except ε (List α)
  | [] => .ok []
  | a :: as =>
    match f a with
    | .error e => .error e
    | .ok b =>
      match filterExcept f as with
      | .error e => .error e
      | .ok rest => .ok (if b then a :: rest else rest)

/-- `fits_criteria` (app.py lines 125-128): `all` of `fits_criterium` over
every key/value pair (the comprehension evaluates every pair, propagating
the first exception). -/
def fits_criteria (now : DateTime) (post : Post) (criteria : Criteria) :
    Except PyErr Bool :=
  match mapExcept (fun kv => fits_criterium now post kv.1 kv.2) criteria with
  | .error e => .error e
  | .ok results => .ok (results.all id)

/-- The sort key of line 119, `lambda post: post['date']`: KeyError when the
`date` key is absent. -/
def getKey (post : Post) : Except PyErr String :=
  match post.date with
  | some d => .ok d
  | none => .error .keyError

/-- Lexicographic comparison of character lists: Python string `<=`. -/
def charsLe : List Char → List Char → Bool
  | [], _ => true
  | _ :: _, [] => false
  | c :: cs, d :: ds =>
    if c < d then true
    else if d < c then false
    else charsLe cs ds

/-- Python string comparison `a <= b` (lexicographic on code points). -/
def strLe (a b : String) : Bool :=
  charsLe a.data b.data

/-- The comparison underlying `sorted(filtered_posts, key=...)`: ascending
by the textual date.  (On posts reaching the sort, the `date` key is always
present, so the `getD ""` default is never the deciding value.) -/
def dateLe (a b : Post) : Prop :=
  strLe (a.date.getD "") (b.date.getD "") = true

instance : DecidableRel dateLe := fun a b =>
  inferInstanceAs (Decidable (_ = true))

/-- `processed_posts` (app.py lines 116-122): filter by the criteria, sort
ascending by the `date` string (Python `sorted` computes every key first —
modelled by `mapExcept getKey` — and is a stable ascending sort — modelled
by `List.insertionSort`, which is stable), and reverse the result when the
key `reverse` is present in the criteria (its value is never read). -/
def processed_posts (now : DateTime) (posts : List Post) (criteria : Criteria) :
    Except PyErr (List Post) :=
  match filterExcept (fun post => fits_criteria now post criteria) posts with
  | .error e => .error e
  | .ok filtered_posts =>
    match mapExcept getKey filtered_posts with
    | .error e => .error e
    | .ok _keys =>
      let sorted_posts := List.insertionSort dateLe filtered_posts
      if criteria.any (fun kv => decide (kv.1 = "reverse")) then
        .ok sorted_posts.reverse
      else
        .ok sorted_posts

/-- `ceil(len(items) / pagination)` (app.py line 154), for a positive
divisor. -/
def ceilDiv (a b : Nat) : Nat := (a + b - 1) / b

/-- The `for page in range(1, pages+1)` loop of `reverse_chunks` (app.py
lines 160-163), counting the remaining iterations: append the reversed
slice `items[start:stop]`, then `start = max(0, start - pagination)`
(truncated subtraction) and `stop -= pagination` (while `stop` is still
used it stays positive, so truncated subtraction is faithful). -/
def chunksLoop (items : List α) (pagination : Nat) : Nat → Nat → Nat → List (List α)
  | 0, _, _ => []
  | count + 1, start, stop =>
    ((items.drop start).take (stop - start)).reverse ::
      chunksLoop items pagination count (start - pagination) (stop - pagination)

/-- `reverse_chunks` (app.py lines 148-164).  With at most one page the
whole reversed list is the single chunk (the code appends `reversed(items)`,
an iterator over the reversed items); otherwise the loop walks the list
back to front. -/
def reverse_chunks (items : List α) (pagination : Nat) : List (List α) :=
  let pages := ceilDiv items.length pagination
  if pages ≤ 1 then
    [items.reverse]
  else
    chunksLoop items pagination pages (items.length - pagination) items.length

/-- The reversed slice `list(reversed(items[a:b]))`. -/
def sliceRev (items : List α) (a b : Nat) : List α :=
  ((items.drop a).take (b - a)).reverse

/-- Outcome of the `show_index` route handler: either a rendered
`posts.tmpl` page (its template arguments) or a rendered `error.tmpl`. -/
inductive IndexResult where
  | page (posts : List Post) (pagenum : Int) (old new : Bool)
  | error (msg : String)
deriving DecidableEq, Repr

/-- `show_index` (app.py lines 201-224) on an already-computed post
collection (the `posts=None` route case fetches the same collection from
disk first; the disk read is outside the model).  Note `if not page:`
treats page `0` like `None`, defaulting both to page 1. -/
def show_index (page_arg : Option Int) (posts : List Post) : IndexResult :=
  if posts = [] then
    IndexResult.error "No posts yet"
  else
    let page : Int := match page_arg with
      | none => 1
      | some p => if p = 0 then 1 else p
    let pages := reverse_chunks posts 5
    if 1 ≤ page ∧ page ≤ (pages.length : Int) then
      IndexResult.page (pages.getD (page - 1).toNat [])
        page
        (decide (pages.length > 1) && decide (page ≠ (pages.length : Int)))
        (decide (pages.length > 1) && decide (page ≠ 1))
    else
      IndexResult.error "Invalid index"

/-- Outcome of the `show_post` route handler. -/
inductive PostView where
  | page (title date content : String)
  | error (msg : String)
deriving DecidableEq, Repr

/-- `show_post` (app.py lines 227-240) with the file system abstracted:
`file` is `none` when `<slug>.rst` does not exist, otherwise the parsed
`(metadata, content)` pair.  When the metadata is incomplete the locals
`title` and `date` are read without ever being assigned, so Python raises
`UnboundLocalError` (an unhandled exception, not a rendered template). -/
def show_post (file : Option (Post × String)) : Except PyErr PostView :=
  match file with
  | none => .ok (.error "No such post")
  | some (metadata, content) =>
    if ensure_metadata metadata then
      .ok (.page (metadata.title.getD "") (metadata.date.getD "") content)
    else
      .error .unboundLocalError

/-- A sample valid post with the given date and published flag. -/
def samplePost (d : String) (pub : Option String) : Post :=
  { title := some "t", date := some d, category := some "c", published := pub }

/-- A fixed evaluation time for concrete instances. -/
def now0 : DateTime := ⟨2020, 6, 15, 12, 0, 0⟩

/-- A post whose `published` key is absent. -/
def pMissing : Post :=
  { title := some "t", date := some "2000-01-01 00:00:00", category := some "c" }

/-- Two posts sharing one date (a sort tie), distinguished by title. -/
def tieA : Post := samplePost "2000-01-01 00:00:00" (some "yes")

/-- Second post of the tied pair. -/
def tieB : Post :=
  { title := some "b", date := some "2000-01-01 00:00:00", category := some "c",
    published := some "yes" }

/-- A list of six valid posts (two pagination pages at size 5). -/
def sixPosts : List Post := List.replicate 6 (samplePost "2000-01-01 00:00:00" (some "yes"))

/-- A post with an early date. -/
def pEarly : Post := samplePost "2000-01-01 00:00:00" (some "yes")

/-- A post with a late date. -/
def pLate : Post := samplePost "2010-01-01 00:00:00" (some "yes")

/-! ### Helper lemmas: the lexicographic comparison -/

theorem charsLe_total : ∀ as bs : List Char, charsLe as bs = true ∨ charsLe bs as = true
  | [], _ => Or.inl rfl
  | _ :: _, [] => Or.inr rfl
  | a :: as, b :: bs => by
    rcases lt_trichotomy a b with h | h | h
    · left; simp [charsLe, h]
    · subst h
      rcases charsLe_total as bs with ih | ih
      · left; simp [charsLe, lt_irrefl, ih]
      · right; simp [charsLe, lt_irrefl, ih]
    · right; simp [charsLe, h]

theorem charsLe_trans : ∀ as bs cs : List Char,
    charsLe as bs = true → charsLe bs cs = true → charsLe as cs = true
  | [], _, _ => fun _ _ => rfl
  | _ :: _, [], _ => fun h _ => by simp [charsLe] at h
  | _ :: _, _ :: _, [] => fun _ h => by simp [charsLe] at h
  | a :: as, b :: bs, c :: cs => by
    intro h1 h2
    simp only [charsLe] at h1 h2 ⊢
    rcases lt_trichotomy a b with hab | hab | hab
    · rcases lt_trichotomy b c with hbc | hbc | hbc
      · rw [if_pos (lt_trans hab hbc)]
      · subst hbc
        rw [if_pos hab]
      · rw [if_neg (lt_asymm hbc), if_pos hbc] at h2
        exact Bool.noConfusion h2
    · subst hab
      rw [if_neg (lt_irrefl a), if_neg (lt_irrefl a)] at h1
      rcases lt_trichotomy a c with hac | hac | hac
      · rw [if_pos hac]
      · subst hac
        rw [if_neg (lt_irrefl a), if_neg (lt_irrefl a)] at h2 ⊢
        exact charsLe_trans as bs cs h1 h2
      · rw [if_neg (lt_asymm hac), if_pos hac] at h2
        exact Bool.noConfusion h2
    · rw [if_neg (lt_asymm hab), if_pos hab] at h1
      exact Bool.noConfusion h1

theorem charsLe_antisymm : ∀ as bs : List Char,
    charsLe as bs = true → charsLe bs as = true → as = bs
  | [], [] => fun _ _ => rfl
  | [], _ :: _ => fun _ h => by simp [charsLe] at h
  | _ :: _, [] => fun h _ => by simp [charsLe] at h
  | a :: as, b :: bs => by
    intro h1 h2
    rcases lt_trichotomy a b with hab | hab | hab
    · simp [charsLe, hab, not_lt_of_gt hab] at h2
    · subst hab
      simp only [charsLe, lt_irrefl, if_false] at h1 h2
      rw [charsLe_antisymm as bs h1 h2]
    · simp [charsLe, hab, not_lt_of_gt hab] at h1

theorem dateLe_total (a b : Post) : dateLe a b ∨ dateLe b a :=
  charsLe_total _ _

theorem dateLe_trans {a b c : Post} (h1 : dateLe a b) (h2 : dateLe b c) : dateLe a c :=
  charsLe_trans _ _ _ h1 h2

theorem dateLe_antisymm {a b : Post} (h1 : dateLe a b) (h2 : dateLe b a) :
    a.date.getD "" = b.date.getD "" := by
  have h := charsLe_antisymm _ _ h1 h2
  cases hda : a.date.getD "" with
  | mk da =>
    cases hdb : b.date.getD "" with
    | mk db =>
      rw [hda, hdb] at h
      exact congrArg String.mk h

/-! ### Helper lemmas: ceiling division -/

theorem lt_ceilDiv_iff {a n : Nat} (hn : 0 < n) (k : Nat) :
    k < ceilDiv a n ↔ k * n < a := by
  unfold ceilDiv
  rw [Nat.lt_iff_add_one_le, Nat.le_div_iff_mul_le hn]
  have h : (k + 1) * n = k * n + n := by ring
  rw [h]
  generalize k * n = m
  omega

theorem ceilDiv_le_iff {a n : Nat} (hn : 0 < n) (k : Nat) :
    ceilDiv a n ≤ k ↔ a ≤ k * n := by
  rw [← Nat.not_lt, lt_ceilDiv_iff hn, Nat.not_lt]

theorem ceilDiv_eq (a n : Nat) (hn : 0 < n) :
    ceilDiv a n = a / n + (if a % n = 0 then 0 else 1) := by
  have hdm := Nat.div_add_mod a n
  have hmlt : a % n < n := Nat.mod_lt a hn
  apply Nat.le_antisymm
  · rw [ceilDiv_le_iff hn]
    by_cases hr : a % n = 0
    · simp only [hr, if_true]
      have hc : (a / n + 0) * n = n * (a / n) := by ring
      omega
    · simp only [hr, if_false]
      have hc : (a / n + 1) * n = n * (a / n) + n := by ring
      omega
  · by_cases ha : a = 0
    · subst ha; simp [ceilDiv]
    · have key : a / n + (if a % n = 0 then 0 else 1) - 1 < ceilDiv a n := by
        rw [lt_ceilDiv_iff hn]
        by_cases hr : a % n = 0
        · simp only [hr, if_true]
          have hq : 0 < a / n := by
            rcases Nat.eq_zero_or_pos (a / n) with h0 | h0
            · exfalso
              rw [h0, Nat.mul_zero] at hdm
              omega
            · exact h0
          have hc1 : (a / n + 0 - 1) * n = a / n * n - 1 * n := by
            rw [Nat.add_zero, Nat.sub_mul]
          have hc2 : a / n * n = n * (a / n) := Nat.mul_comm _ _
          have hc3 : n * 1 ≤ n * (a / n) := Nat.mul_le_mul_left n hq
          omega
        · simp only [hr, if_false]
          have hc1 : (a / n + 1 - 1) * n = n * (a / n) := by
            rw [Nat.add_sub_cancel]
            exact Nat.mul_comm _ _
          omega
      omega

/-! ### Helper lemmas: effectful filter and map -/

theorem filterExcept_mem {f : α → Except ε Bool} :
    ∀ {l res : List α}, filterExcept f l = .ok res →
      ∀ a, a ∈ res ↔ a ∈ l ∧ f a = .ok true := by
  intro l
  induction l with
  | nil =>
    intro res h a
    simp only [filterExcept, Except.ok.injEq] at h
    subst h
    simp
  | cons x xs ih =>
    intro res h a
    simp only [filterExcept] at h
    cases hfx : f x with
    | error e => rw [hfx] at h; cases h
    | ok b =>
      rw [hfx] at h
      cases hrest : filterExcept f xs with
      | error e => rw [hrest] at h; cases h
      | ok rest =>
        rw [hrest] at h
        simp only [Except.ok.injEq] at h
        subst h
        have ihm := ih hrest a
        cases b with
        | true =>
          show a ∈ x :: rest ↔ a ∈ x :: xs ∧ f a = .ok true
          rw [List.mem_cons, List.mem_cons, ihm]
          constructor
          · rintro (rfl | ⟨hm, hfa⟩)
            · exact ⟨Or.inl rfl, hfx⟩
            · exact ⟨Or.inr hm, hfa⟩
          · rintro ⟨rfl | hm, hfa⟩
            · exact Or.inl rfl
            · exact Or.inr ⟨hm, hfa⟩
        | false =>
          show a ∈ rest ↔ a ∈ x :: xs ∧ f a = .ok true
          rw [List.mem_cons, ihm]
          constructor
          · rintro ⟨hm, hfa⟩
            exact ⟨Or.inr hm, hfa⟩
          · rintro ⟨rfl | hm, hfa⟩
            · rw [hfx] at hfa
              exact absurd hfa (by simp)
            · exact ⟨hm, hfa⟩

theorem filterExcept_of_forall {f : α → Except ε Bool} :
    ∀ {l : List α}, (∀ a ∈ l, f a = .ok true) → filterExcept f l = .ok l := by
  intro l
  induction l with
  | nil => intro _; rfl
  | cons x xs ih =>
    intro h
    simp only [filterExcept]
    rw [h x (List.mem_cons_self x xs), ih (fun a ha => h a (List.mem_cons_of_mem x ha))]
    rfl

theorem mapExcept_ok_forall {f : α → Except ε β} :
    ∀ {l : List α} {res : List β}, mapExcept f l = .ok res →
      ∀ a ∈ l, ∃ b, f a = .ok b := by
  intro l
  induction l with
  | nil => intro res _ a ha; cases ha
  | cons x xs ih =>
    intro res h a ha
    simp only [mapExcept] at h
    cases hfx : f x with
    | error e => rw [hfx] at h; cases h
    | ok b =>
      rw [hfx] at h
      cases hrest : mapExcept f xs with
      | error e => rw [hrest] at h; cases h
      | ok bs =>
        rcases List.mem_cons.mp ha with rfl | ha'
        · exact ⟨b, hfx⟩
        · exact ih hrest a ha'

theorem mapExcept_of_forall {f : α → Except ε β} :
    ∀ {l : List α}, (∀ a ∈ l, ∃ b, f a = .ok b) → ∃ res, mapExcept f l = .ok res := by
  intro l
  induction l with
  | nil => intro _; exact ⟨[], rfl⟩
  | cons x xs ih =>
    intro h
    obtain ⟨b, hb⟩ := h x (List.mem_cons_self x xs)
    obtain ⟨bs, hbs⟩ := ih (fun a ha => h a (List.mem_cons_of_mem x ha))
    exact ⟨b :: bs, by simp only [mapExcept]; rw [hb, hbs]⟩

/-! ### Helper lemmas: the pagination loop -/

theorem chunksLoop_eq (items : List α) (n : Nat) :
    ∀ (k stop : Nat),
      chunksLoop items n k (stop - n) stop =
        (List.range k).map (fun i => sliceRev items (stop - (i + 1) * n) (stop - i * n))
  | 0, _ => by simp [chunksLoop]
  | k + 1, stop => by
    have ih := chunksLoop_eq items n k (stop - n)
    rw [List.range_succ_eq_map]
    simp only [chunksLoop, List.map_cons, List.map_map]
    congr 1
    · simp [sliceRev]
    · rw [ih]
      apply List.map_congr_left
      intro i _
      simp only [Function.comp_apply, sliceRev, Nat.sub_sub, Nat.succ_eq_add_one]
      have e1 : n + (i + 1) * n = (i + 1 + 1) * n := by ring
      have e2 : n + i * n = (i + 1) * n := by ring
      rw [e1, e2]

theorem reverse_chunks_eq (items : List α) (n : Nat) (hn : 0 < n) (hne : items ≠ []) :
    reverse_chunks items n =
      (List.range (ceilDiv items.length n)).map
        (fun i => sliceRev items (items.length - (i + 1) * n) (items.length - i * n)) := by
  have hlen : 0 < items.length := List.length_pos.mpr hne
  have h1 : 1 ≤ ceilDiv items.length n := by
    have := (lt_ceilDiv_iff hn 0).mpr (by simpa using hlen)
    omega
  unfold reverse_chunks
  by_cases hp : ceilDiv items.length n ≤ 1
  · have hp1 : ceilDiv items.length n = 1 := le_antisymm hp h1
    rw [if_pos hp, hp1, show List.range 1 = [0] from rfl]
    have hle : items.length ≤ n := by
      have := (ceilDiv_le_iff hn 1).mp (le_of_eq hp1)
      simpa using this
    have hz : items.length - n = 0 := by omega
    simp [sliceRev, hz, List.take_length]
  · rw [if_neg hp]
    exact chunksLoop_eq items n _ items.length

theorem join_slices (items : List α) (n : Nat) (hn : 0 < n) :
    ∀ (k stop : Nat), stop ≤ k * n → stop ≤ items.length →
      ((List.range k).map
        (fun i => sliceRev items (stop - (i + 1) * n) (stop - i * n))).flatten
        = (items.take stop).reverse
  | 0, stop => by
    intro h1 _
    have hz : stop = 0 := by simpa using h1
    subst hz
    simp
  | k + 1, stop => by
    intro h1 h2
    rw [List.range_succ_eq_map, List.map_cons, List.flatten_cons, List.map_map]
    have htail :
        List.map ((fun i => sliceRev items (stop - (i + 1) * n) (stop - i * n)) ∘ Nat.succ)
          (List.range k) =
        List.map (fun i => sliceRev items ((stop - n) - (i + 1) * n) ((stop - n) - i * n))
          (List.range k) := by
      apply List.map_congr_left
      intro i _
      simp only [Function.comp_apply, sliceRev, Nat.sub_sub, Nat.succ_eq_add_one]
      have e1 : n + (i + 1) * n = (i + 1 + 1) * n := by ring
      have e2 : n + i * n = (i + 1) * n := by ring
      rw [e1, e2]
    have hstop : stop - n ≤ k * n := by
      have e3 : (k + 1) * n = k * n + n := by ring
      omega
    rw [htail, join_slices items n hn k (stop - n) hstop (by omega)]
    have hsplit : items.take stop =
        items.take (stop - n) ++ (items.drop (stop - n)).take (stop - (stop - n)) := by
      rw [← List.take_add]
      congr 1
      omega
    rw [hsplit, List.reverse_append]
    congr 1
    simp [sliceRev]

/-! ### Helper lemmas: processed_posts -/

theorem processed_posts_ok {now : DateTime} {posts res : List Post} {criteria : Criteria}
    (h : processed_posts now posts criteria = .ok res) :
    ∃ filtered_posts,
      filterExcept (fun post => fits_criteria now post criteria) posts = .ok filtered_posts ∧
      (∃ ks, mapExcept getKey filtered_posts = .ok ks) ∧
      res = (if criteria.any (fun kv => decide (kv.1 = "reverse"))
             then (List.insertionSort dateLe filtered_posts).reverse
             else List.insertionSort dateLe filtered_posts) := by
  unfold processed_posts at h
  cases hf : filterExcept (fun post => fits_criteria now post criteria) posts with
  | error e => rw [hf] at h; cases h
  | ok filtered_posts =>
    rw [hf] at h
    dsimp only at h
    cases hk : mapExcept getKey filtered_posts with
    | error e => rw [hk] at h; cases h
    | ok ks =>
      rw [hk] at h
      dsimp only at h
      refine ⟨filtered_posts, rfl, ⟨ks, hk⟩, ?_⟩
      by_cases hrev : criteria.any (fun kv => decide (kv.1 = "reverse")) = true
      · rw [if_pos hrev] at h ⊢
        simp only [Except.ok.injEq] at h
        exact h.symm
      · rw [if_neg hrev] at h ⊢
        simp only [Except.ok.injEq] at h
        exact h.symm

theorem processed_posts_sorted (filtered_posts : List Post) :
    (List.insertionSort dateLe filtered_posts).Pairwise dateLe := by
  haveI : IsTotal Post dateLe := ⟨dateLe_total⟩
  haveI : IsTrans Post dateLe := ⟨fun _ _ _ => dateLe_trans⟩
  exact List.sorted_insertionSort dateLe filtered_posts

theorem processed_posts_mem {now : DateTime} {posts res : List Post} {criteria : Criteria}
    (h : processed_posts now posts criteria = .ok res) (a : Post) :
    a ∈ res ↔ a ∈ posts ∧ fits_criteria now a criteria = .ok true := by
  obtain ⟨filtered_posts, hf, _, hres⟩ := processed_posts_ok h
  have hmem : a ∈ res ↔ a ∈ filtered_posts := by
    subst hres
    by_cases hrev : criteria.any (fun kv => decide (kv.1 = "reverse")) = true
    · rw [if_pos hrev, List.mem_reverse, List.mem_insertionSort]
    · rw [if_neg hrev, List.mem_insertionSort]
  rw [hmem]
  exact filterExcept_mem hf a

/-- Two sorted permutations of one another with pairwise-distinct date keys
are equal. -/
theorem sorted_perm_unique : ∀ {l₁ l₂ : List Post},
    l₁.Perm l₂ → l₁.Pairwise dateLe → l₂.Pairwise dateLe →
    l₁.Pairwise (fun a b => a.date.getD "" ≠ b.date.getD "") → l₁ = l₂ := by
  intro l₁
  induction l₁ with
  | nil =>
    intro l₂ hp _ _ _
    exact hp.nil_eq
  | cons a t ih =>
    intro l₂ hp hs₁ hs₂ hd
    cases l₂ with
    | nil => exact absurd hp.symm.nil_eq (by simp)
    | cons b t₂ =>
      have hab : a = b := by
        by_contra hne
        have hma : a ∈ b :: t₂ := hp.mem_iff.mp (List.mem_cons_self a t)
        have hmb : b ∈ a :: t := hp.symm.mem_iff.mp (List.mem_cons_self b t₂)
        have hma' : a ∈ t₂ := by
          rcases List.mem_cons.mp hma with h | h
          · exact absurd h hne
          · exact h
        have hmb' : b ∈ t := by
          rcases List.mem_cons.mp hmb with h | h
          · exact absurd h.symm hne
          · exact h
        have h1 : dateLe a b := List.rel_of_pairwise_cons hs₁ hmb'
        have h2 : dateLe b a := List.rel_of_pairwise_cons hs₂ hma'
        have hkey : a.date.getD "" = b.date.getD "" := dateLe_antisymm h1 h2
        exact List.rel_of_pairwise_cons hd hmb' hkey
      subst hab
      have ht : t.Perm t₂ := hp.cons_inv
      rw [ih ht (List.Pairwise.of_cons hs₁) (List.Pairwise.of_cons hs₂)
        (List.Pairwise.of_cons hd)]

theorem fits_criteria_single (now : DateTime) (p : Post) (key : String) (value : Value) :
    fits_criteria now p [(key, value)] =
      match fits_criterium now p key value with
      | .error e => .error e
      | .ok b => .ok b := by
  unfold fits_criteria
  cases hfc : fits_criterium now p key value with
  | error e => simp [mapExcept, hfc]
  | ok b => simp [mapExcept, hfc]

/-- The membership condition computed by the `published=True` criterion. -/
theorem fits_published_true_iff (now : DateTime) (p : Post) :
    fits_criteria now p [("published", Value.bool true)] = .ok true ↔
      (¬ (p.published.isSome ∧ p.date.isSome) ∨
        (p.published = some "yes" ∧
          ∃ t, strptime (p.date.getD "") = some t ∧ DateTime.ltb t now = true)) := by
  rw [fits_criteria_single]
  unfold fits_criterium
  by_cases hfield : p.published.isSome ∧ p.date.isSome
  · rw [if_pos (⟨rfl, hfield.1, hfield.2⟩ :
      ("published" : String) = "published" ∧ p.published.isSome ∧ p.date.isSome)]
    cases hst : strptime (p.date.getD "") with
    | none =>
      simp [hfield.1, hfield.2]
    | some t =>
      simp [Value.truthy, hfield.1, hfield.2, Bool.and_eq_true, beq_iff_eq]
  · rw [if_neg (fun hc => hfield ⟨hc.2.1, hc.2.2⟩),
      if_neg (by decide : ¬ ("published" : String) = "category")]
    simp [hfield]

/-! ### Claim theorems -/

/-- C3 counterexample: on the empty list `reverse_chunks` does not return an
empty sequence of pages (the claim asserts `reverse_chunks([], n) == []`):
with `pages = 0 <= 1` the code appends `reversed([])`, one empty page. -/
theorem C3_counterexample : reverse_chunks ([] : List Nat) 1 ≠ [] := by decide

/-- C3 amended: for every page size `n > 0`, `reverse_chunks` applied to the
empty list returns exactly one page, and that page is empty: `[[]]`. -/
theorem C3_amended (α : Type) (n : Nat) (hn : 0 < n) :
    reverse_chunks ([] : List α) n = [[]] := by
  have h0 : ceilDiv 0 n = 0 := by
    unfold ceilDiv
    exact Nat.div_eq_of_lt (by omega)
  simp [reverse_chunks, h0]

/-- C3 amended, witness at `n = 3`. -/
theorem C3_amended_witness :
    0 < 3 ∧ reverse_chunks ([] : List Nat) 3 = [[]] :=
  ⟨by decide, C3_amended Nat 3 (by decide)⟩

/-- C4: for a non-empty list and page size `n > 0`, `reverse_chunks`
produces `ceil(len/n)` pages; every page is the reversal of a contiguous
slice of the input; every page but the last holds exactly `n` items; the
last holds `len mod n` (or `n` when `n` divides `len`); and the worked
example `reverse_chunks([1..10], 4)` is `[[10,9,8,7],[6,5,4,3],[2,1]]`. -/
theorem C4_chunk_shape :
    (∀ (α : Type) (items : List α) (n : Nat), items ≠ [] → 0 < n →
      (reverse_chunks items n).length = ceilDiv items.length n ∧
      ∀ i c, (reverse_chunks items n)[i]? = some c →
        c = sliceRev items (items.length - (i + 1) * n) (items.length - i * n) ∧
        (i + 1 < ceilDiv items.length n → c.length = n) ∧
        (i + 1 = ceilDiv items.length n →
          c.length = if items.length % n = 0 then n else items.length % n)) ∧
    reverse_chunks [1, 2, 3, 4, 5, 6, 7, 8, 9, 10] 4 =
      [[10, 9, 8, 7], [6, 5, 4, 3], [2, 1]] := by
  constructor
  · intro α items n hne hn
    rw [reverse_chunks_eq items n hn hne]
    refine ⟨by simp, ?_⟩
    intro i c hc
    rw [List.getElem?_map] at hc
    by_cases hi : i < ceilDiv items.length n
    · rw [List.getElem?_range hi] at hc
      simp only [Option.map_some', Option.some.injEq] at hc
      subst hc
      refine ⟨rfl, ?_, ?_⟩
      · intro h2
        have hlt : (i + 1) * n < items.length := (lt_ceilDiv_iff hn (i + 1)).mp h2
        have hmono : i * n + n = (i + 1) * n := by ring
        simp only [sliceRev, List.length_reverse, List.length_take, List.length_drop]
        omega
      · intro h3
        have hub : items.length ≤ (i + 1) * n :=
          (ceilDiv_le_iff hn (i + 1)).mp (le_of_eq h3.symm)
        have hlb : i * n < items.length := (lt_ceilDiv_iff hn i).mp (by omega)
        have hmono : i * n + n = (i + 1) * n := by ring
        have hdm := Nat.div_add_mod items.length n
        have hmlt : items.length % n < n := Nat.mod_lt _ hn
        have hPeq := ceilDiv_eq items.length n hn
        simp only [sliceRev, List.length_reverse, List.length_take, List.length_drop]
        by_cases hr : items.length % n = 0
        · have hieq : i + 1 = items.length / n := by
            rw [hPeq, if_pos hr, Nat.add_zero] at h3
            exact h3
          have he1 : (i + 1) * n = items.length / n * n := by rw [hieq]
          have he2 : items.length / n * n = n * (items.length / n) := Nat.mul_comm _ _
          rw [if_pos hr]
          omega
        · have hieq : i + 1 = items.length / n + 1 := by
            rw [hPeq, if_neg hr] at h3
            exact h3
          have he1 : (i + 1) * n = (items.length / n + 1) * n := by rw [hieq]
          have he2 : (items.length / n + 1) * n = n * (items.length / n) + n := by ring
          rw [if_neg hr]
          omega
    · rw [List.getElem?_eq_none (by simpa using Nat.not_lt.mp hi)] at hc
      cases hc
  · rfl

/-- C4 witness: the page count at a concrete input, through the theorem. -/
theorem C4_chunk_shape_witness :
    (reverse_chunks [1, 2, 3] 2).length = ceilDiv 3 2 :=
  (C4_chunk_shape.1 Nat [1, 2, 3] 2 (by decide) (by decide)).1

/-- C10: concatenating the pages of `reverse_chunks items n` in order, for
any page size `n > 0`, yields exactly the reversal of `items` — no item is
dropped or duplicated. -/
theorem C10_flatten_reverse (α : Type) (items : List α) (n : Nat) (hn : 0 < n) :
    (reverse_chunks items n).flatten = items.reverse := by
  by_cases hne : items = []
  · subst hne
    have h0 : ceilDiv 0 n = 0 := by
      unfold ceilDiv
      exact Nat.div_eq_of_lt (by omega)
    simp [reverse_chunks, h0]
  · rw [reverse_chunks_eq items n hn hne,
      join_slices items n hn (ceilDiv items.length n) items.length
        ((ceilDiv_le_iff hn _).mp le_rfl) le_rfl,
      List.take_length]

/-- C10 witness at the documented example. -/
theorem C10_flatten_reverse_witness :
    0 < 4 ∧ (reverse_chunks [1, 2, 3, 4, 5, 6, 7, 8, 9, 10] 4).flatten =
      [1, 2, 3, 4, 5, 6, 7, 8, 9, 10].reverse :=
  ⟨by decide, C10_flatten_reverse Nat [1, 2, 3, 4, 5, 6, 7, 8, 9, 10] 4 (by decide)⟩

/-- C2 counterexample: the claim says page `0` yields the "Invalid index"
error for any non-empty post set, but `if not page:` treats `0` like `None`:
page `0` is silently clamped to page 1. -/
theorem C2_counterexample :
    show_index (some 0) [{}] ≠ IndexResult.error "Invalid index" ∧
    show_index (some 0) [{}] = show_index (some 1) [{}] := by
  constructor
  · decide
  · rfl

/-- C2 amended: for a non-empty post set, a negative page or a page beyond
the last yields "Invalid index"; page `0` behaves exactly like page 1 (the
falsy default, not an error); a page in `1..len(pages)` yields the
corresponding chunk of `reverse_chunks posts 5`. -/
theorem C2_amended (posts : List Post) (p : Int) (hne : posts ≠ []) :
    ((p < 0 ∨ ((reverse_chunks posts 5).length : Int) < p) →
      show_index (some p) posts = IndexResult.error "Invalid index") ∧
    (p = 0 → show_index (some p) posts = show_index (some 1) posts) ∧
    ((1 ≤ p ∧ p ≤ ((reverse_chunks posts 5).length : Int)) →
      ∃ old new, show_index (some p) posts =
        IndexResult.page ((reverse_chunks posts 5).getD (p - 1).toNat []) p old new) := by
  unfold show_index
  simp only [if_neg hne]
  dsimp only
  refine ⟨?_, ?_, ?_⟩
  · intro hout
    have hlen0 : (0 : Int) ≤ ((reverse_chunks posts 5).length : Int) := Int.natCast_nonneg _
    have hp0 : ¬ p = 0 := by omega
    rw [if_neg hp0, if_neg (by omega :
      ¬ (1 ≤ p ∧ p ≤ ((reverse_chunks posts 5).length : Int)))]
  · intro hp
    subst hp
    simp
  · rintro ⟨h1, h2⟩
    have hp0 : ¬ p = 0 := by omega
    rw [if_neg hp0, if_pos (⟨h1, h2⟩ :
      1 ≤ p ∧ p ≤ ((reverse_chunks posts 5).length : Int))]
    exact ⟨_, _, rfl⟩

/-- C2 amended, witness: page 7 of a one-page post set is rejected. -/
theorem C2_amended_witness :
    show_index (some 7) [{}] = IndexResult.error "Invalid index" :=
  (C2_amended [{}] 7 (by decide)).1 (by decide)

/-- C9: for a non-empty post set and a valid page number, `show_index`
renders a page whose `new` flag (a newer page exists) is set iff
`pages > 1 and page != 1`, and whose `old` flag (an older page exists) is
set iff `pages > 1 and page != len(pages)`. -/
theorem C9_nav_flags (posts : List Post) (p : Int) (hne : posts ≠ [])
    (h1 : 1 ≤ p) (h2 : p ≤ ((reverse_chunks posts 5).length : Int)) :
    ∃ chunk old new,
      show_index (some p) posts = IndexResult.page chunk p old new ∧
      (new = true ↔ (1 < (reverse_chunks posts 5).length ∧ p ≠ 1)) ∧
      (old = true ↔ (1 < (reverse_chunks posts 5).length ∧
        p ≠ ((reverse_chunks posts 5).length : Int))) := by
  unfold show_index
  simp only [if_neg hne]
  dsimp only
  have hp0 : ¬ p = 0 := by omega
  rw [if_neg hp0, if_pos (⟨h1, h2⟩ :
    1 ≤ p ∧ p ≤ ((reverse_chunks posts 5).length : Int))]
  refine ⟨_, _, _, rfl, ?_, ?_⟩
  · simp [Bool.and_eq_true, decide_eq_true_eq]
  · simp [Bool.and_eq_true, decide_eq_true_eq]

/-- C9 witness: page 2 of a six-post set (two pages). -/
theorem C9_nav_flags_witness :
    ∃ chunk old new,
      show_index (some 2) sixPosts = IndexResult.page chunk 2 old new ∧
      (new = true ↔ (1 < (reverse_chunks sixPosts 5).length ∧ (2 : Int) ≠ 1)) ∧
      (old = true ↔ (1 < (reverse_chunks sixPosts 5).length ∧
        (2 : Int) ≠ ((reverse_chunks sixPosts 5).length : Int))) :=
  C9_nav_flags sixPosts 2 (by decide) (by decide) (by decide)

/-- C6: a post lacking the `date` key or the `published` key is never
excluded by the `published` criterion, whatever boolean value the criterion
carries: `fits_criterium` returns `True` for it. -/
theorem C6_vacuous_published (now : DateTime) (post : Post) (value : Value)
    (h : post.date = none ∨ post.published = none) :
    fits_criterium now post "published" value = .ok true := by
  unfold fits_criterium
  rcases h with h | h
  · rw [if_neg (by simp [h]), if_neg (by decide)]
  · rw [if_neg (by simp [h]), if_neg (by decide)]

/-- C6 witness: the empty metadata record, criterion value `True`. -/
theorem C6_vacuous_published_witness :
    (({} : Post).date = none ∨ ({} : Post).published = none) ∧
    fits_criterium now0 {} "published" (Value.bool true) = .ok true ∧
    fits_criterium now0 {} "published" (Value.bool false) = .ok true :=
  ⟨Or.inl rfl, C6_vacuous_published now0 {} (Value.bool true) (Or.inl rfl),
    C6_vacuous_published now0 {} (Value.bool false) (Or.inl rfl)⟩

/-- C7: the claim says a single-post request whose metadata lacks a
required field yields a soft user-visible error; the code instead reads the
never-assigned locals `title`/`date` and raises `UnboundLocalError` — an
unhandled, request-fatal exception, not a rendered error template. -/
theorem C7_unbound_local_error :
    show_post (some ({}, "body")) = .error PyErr.unboundLocalError := rfl

/-- C1 counterexample: a post whose `published` key is absent appears in
`processed_posts(posts, published=True)` even though its `published` field
does not equal "yes" — the claimed iff fails. -/
theorem C1_counterexample :
    processed_posts now0 [pMissing] [("published", Value.bool true)] = .ok [pMissing] ∧
    ¬ (pMissing.published = some "yes" ∧
        ∃ t, strptime (pMissing.date.getD "") = some t ∧ DateTime.ltb t now0 = true) := by
  refine ⟨rfl, ?_⟩
  rintro ⟨hpub, -⟩
  exact absurd hpub (by decide)

/-- C1 amended: when `processed_posts(posts, published=True)` succeeds, a
post `p` of `posts` appears in the result iff either it lacks the
`published` or `date` key (the criterion is then vacuously true), or its
`published` field equals "yes" and its parsed date is strictly before the
current time. -/
theorem C1_amended (now : DateTime) (posts res : List Post) (p : Post)
    (hp : p ∈ posts)
    (h : processed_posts now posts [("published", Value.bool true)] = .ok res) :
    p ∈ res ↔
      (¬ (p.published.isSome ∧ p.date.isSome) ∨
        (p.published = some "yes" ∧
          ∃ t, strptime (p.date.getD "") = some t ∧ DateTime.ltb t now = true)) := by
  rw [processed_posts_mem h p, fits_published_true_iff]
  simp [hp]

/-- C1 amended, witness: the post lacking `published` is kept. -/
theorem C1_amended_witness :
    pMissing ∈ ([pMissing] : List Post) ↔
      (¬ (pMissing.published.isSome ∧ pMissing.date.isSome) ∨
        (pMissing.published = some "yes" ∧
          ∃ t, strptime (pMissing.date.getD "") = some t ∧
            DateTime.ltb t now0 = true)) :=
  C1_amended now0 [pMissing] [pMissing] pMissing (by decide) rfl

/-- C5: a successful `processed_posts` result is ascending in the textual
date on every adjacent pair when the criteria lack a `reverse` key, and
descending on every adjacent pair when `reverse` is present (whatever its
value — only presence is tested). -/
theorem C5_sorting (now : DateTime) (posts : List Post) (criteria : Criteria)
    (res : List Post) (h : processed_posts now posts criteria = .ok res) :
    (criteria.any (fun kv => decide (kv.1 = "reverse")) = false →
      res.Chain' dateLe) ∧
    (criteria.any (fun kv => decide (kv.1 = "reverse")) = true →
      res.Chain' (fun a b => dateLe b a)) := by
  obtain ⟨filtered_posts, _, _, hres⟩ := processed_posts_ok h
  have hsorted := processed_posts_sorted filtered_posts
  constructor
  · intro hrev
    rw [hres, if_neg (by simp [hrev])]
    exact hsorted.chain'
  · intro hrev
    rw [hres, if_pos hrev, List.chain'_reverse]
    exact hsorted.chain'

/-- C5 witness: with no criteria, two posts come back oldest-first. -/
theorem C5_sorting_witness : List.Chain' dateLe [pEarly, pLate] :=
  (C5_sorting now0 [pLate, pEarly] [] [pEarly, pLate] (by decide)).1 (by decide)

/-- C8 counterexample: with `reverse` present and two posts sharing a date,
applying `processed_posts` twice differs from applying it once — the stable
re-sort of the reversed list flips the tied pair back. -/
theorem C8_counterexample :
    (processed_posts now0 [tieA, tieB] [("reverse", Value.bool true)]).bind
        (fun l => processed_posts now0 l [("reverse", Value.bool true)]) ≠
      processed_posts now0 [tieA, tieB] [("reverse", Value.bool true)] := by
  decide

/-- C8 amended: `processed_posts` is idempotent whenever the criteria have
no `reverse` key; with `reverse` present it is idempotent provided no two
posts of the result share a date (tied dates are re-reversed by the second
application). -/
theorem C8_amended (now : DateTime) (posts res : List Post) (criteria : Criteria)
    (h : processed_posts now posts criteria = .ok res)
    (hside : criteria.any (fun kv => decide (kv.1 = "reverse")) = false ∨
      res.Pairwise (fun a b => a.date.getD "" ≠ b.date.getD "")) :
    processed_posts now res criteria = .ok res := by
  obtain ⟨filtered_posts, hf, ⟨ks, hk⟩, hres⟩ := processed_posts_ok h
  have hmemf : ∀ a ∈ res, a ∈ filtered_posts := by
    intro a ha
    rw [hres] at ha
    by_cases hrev : criteria.any (fun kv => decide (kv.1 = "reverse")) = true
    · rw [if_pos hrev, List.mem_reverse, List.mem_insertionSort] at ha
      exact ha
    · rw [if_neg hrev, List.mem_insertionSort] at ha
      exact ha
  have hfits : ∀ a ∈ res, (fun post => fits_criteria now post criteria) a = .ok true := by
    intro a ha
    exact ((filterExcept_mem hf a).mp (hmemf a ha)).2
  have hdates : ∀ a ∈ res, ∃ d, getKey a = .ok d := by
    intro a ha
    exact mapExcept_ok_forall hk a (hmemf a ha)
  obtain ⟨ks2, hk2⟩ := mapExcept_of_forall hdates
  unfold processed_posts
  rw [filterExcept_of_forall hfits]
  dsimp only
  rw [hk2]
  dsimp only
  by_cases hrev : criteria.any (fun kv => decide (kv.1 = "reverse")) = true
  · rw [if_pos hrev]
    rw [if_pos hrev] at hres
    have hdist : res.Pairwise (fun a b => a.date.getD "" ≠ b.date.getD "") := by
      rcases hside with hs | hs
      · rw [hs] at hrev
        cases hrev
      · exact hs
    have hS : res.reverse = List.insertionSort dateLe filtered_posts := by
      rw [hres, List.reverse_reverse]
    have hkey : List.insertionSort dateLe res = res.reverse := by
      apply sorted_perm_unique
      · exact (List.perm_insertionSort dateLe res).trans (List.reverse_perm res).symm
      · exact processed_posts_sorted res
      · rw [hS]
        exact processed_posts_sorted filtered_posts
      · exact ((List.perm_insertionSort dateLe res).pairwise_iff
          (fun hab => Ne.symm hab)).mpr hdist
    rw [hkey, List.reverse_reverse]
  · rw [if_neg hrev]
    rw [if_neg hrev] at hres
    have heq : List.insertionSort dateLe res = res := by
      apply List.Sorted.insertionSort_eq
      rw [hres]
      exact processed_posts_sorted filtered_posts
    rw [heq]

/-- C8 amended, witness: a reverse-free query applied to its own output. -/
theorem C8_amended_witness :
    processed_posts now0 [tieA, tieB] [] = .ok [tieA, tieB] :=
  C8_amended now0 [tieA, tieB] [tieA, tieB] [] (by decide) (Or.inl (by decide))

end Microblog
